import Mathlib

/-!
Verification of the SpamAssassin corpus preparation pipeline
(`spam-data-preparation.ipynb`).

The notebook's core is the normalizer `email_body_to_words`, built from five
compiled regular expressions

  re_url      = `http[s]?://(?:[a-zA-Z]|[0-9]|[$-_@.&+]|[!*\(\),]|(?:%[0-9a-fA-F][0-9a-fA-F]))+`
  re_email    = `[a-zA-Z0-9_.+-]+@[a-zA-Z0-9-]+\.[a-zA-Z0-9-.]+`
  re_number   = `\b\d+\b`
  re_hash     = `[0-9a-f]{32}`
  re_non_word = `\W+`

applied with `re.sub` (leftmost, non-overlapping, greedy), and the vocabulary
builder `vocab` built from `vocab_set` (a set union) by `sorted` + `enumerate`.

Strings are embedded as `List Char`; each `re.sub` call is embedded as a
left-to-right scanner.  For every one of the five patterns the greedy match at
a given position is computable by maximal munch with no backtracking, as argued
in the doc comment of each matcher.  The embedding models the ASCII fragment of
Python's Unicode-aware `\w`, `str.lower`, `str.split` and `str.isdigit`; all
statements below exercise only that fragment, and every whitespace character is
a non-word character in both readings.
-/

namespace SpamData

/-- Character class of the lowercase hexadecimal digits, `[0-9a-f]` in `re_hash`. -/
def isHexLower (c : Char) : Bool := c.isDigit || ('a' ≤ c && c ≤ 'f')

/-- ASCII core of the `\w` class complementing `re_non_word`'s `\W`:
letter, digit or underscore. -/
def isWordChar (c : Char) : Bool := c.isAlphanum || c == '_'

/-- Character class of the iterated group of `re_url`: the alternatives
`[a-zA-Z]`, `[0-9]`, `[$-_@.&+]` (a codepoint range from `$` = 0x24 to `_` = 0x5F;
`@ . & +` already lie inside it) and `[!*\(\),]`.  The remaining alternative
`%[0-9a-fA-F][0-9a-fA-F]` matches three characters each matched by the previous
alternatives (`%` lies in the `$`..`_` range), so it adds nothing to the
character set consumed by the iterated group. -/
def isUrlChar (c : Char) : Bool :=
  c.isAlpha || c.isDigit || ('$' ≤ c && c ≤ '_') ||
    c == '@' || c == '.' || c == '&' || c == '+' ||
    c == '!' || c == '*' || c == '(' || c == ')' || c == ','

/-- Local-part class of `re_email`: `[a-zA-Z0-9_.+-]`. -/
def isLocalChar (c : Char) : Bool :=
  c.isAlphanum || c == '_' || c == '.' || c == '+' || c == '-'

/-- First domain class of `re_email`: `[a-zA-Z0-9-]`. -/
def isDomChar (c : Char) : Bool := c.isAlphanum || c == '-'

/-- Second domain class of `re_email`: `[a-zA-Z0-9-.]`. -/
def isDomDotChar (c : Char) : Bool := c.isAlphanum || c == '-' || c == '.'

/-- Boolean test that the first argument is literally at the head of the second. -/
def startsWith : List Char → List Char → Bool
  | [], _ => true
  | _ :: _, [] => false
  | p :: ps, c :: cs => p == c && startsWith ps cs

/-- Right-hand `\b` of `re_number`: a word boundary follows a digit run when the
input ends there or the next character is not a word character. -/
def boundaryAfter : List Char → Bool
  | [] => true
  | d :: _ => !isWordChar d

/-- Length of the literal part of a `re_url` match: 8 for `https://`, else 7. -/
def urlHeadLen (l : List Char) : Nat :=
  if startsWith "https://".data l then 8 else 7

/-- Match attempt for `re_url` at the head of `l`, returning the length of the
greedy match.  No backtracking can occur: `http://` and `https://` cannot both
be prefixes of `l` (they differ at index 4), and the iterated group consumes
the maximal non-empty run of `isUrlChar` characters, with no constraint after it. -/
def urlTry (l : List Char) : Option Nat :=
  if (startsWith "http://".data l || startsWith "https://".data l)
      && !((l.drop (urlHeadLen l)).takeWhile isUrlChar).isEmpty then
    some (urlHeadLen l + ((l.drop (urlHeadLen l)).takeWhile isUrlChar).length)
  else none

/-- Match attempt for `re_email` at the head of `l`, returning the match length.
No backtracking can occur: shortening the greedy `[a-zA-Z0-9_.+-]+` run leaves
the next character inside the same class, hence never equal to the required `@`,
and likewise for `[a-zA-Z0-9-]+` before the literal dot; the final
`[a-zA-Z0-9-.]+` run has no constraint after it. -/
def emailTry (l : List Char) : Option Nat :=
  let loc := l.takeWhile isLocalChar
  let r1 := l.dropWhile isLocalChar
  let d1 := (r1.drop 1).takeWhile isDomChar
  let r3 := (r1.drop 1).dropWhile isDomChar
  let d2 := (r3.drop 1).takeWhile isDomDotChar
  if !loc.isEmpty && (r1.head? == some '@') && !d1.isEmpty
      && (r3.head? == some '.') && !d2.isEmpty then
    some (loc.length + 1 + d1.length + 1 + d2.length)
  else none

/-- Match attempt for `re_hash` at the head of `l`: exactly 32 lowercase
hexadecimal characters (the pattern has no boundary anchors). -/
def hashTry (l : List Char) : Option Nat :=
  if 32 ≤ l.length && (l.take 32).all isHexLower then some 32 else none

/-- Match attempt for `re_non_word` at the head of `l`: the maximal non-empty
run of non-word characters. -/
def nwTry : List Char → Option Nat
  | [] => none
  | c :: rest =>
    if isWordChar c then none
    else some (1 + (rest.takeWhile (fun d => !isWordChar d)).length)

/-- Generic model of `re.sub`: scan left to right; where `tryf` reports a match
of length `n`, emit `repl` and resume after the match, otherwise copy one
character.  The skip counter consumes the tail of a match one character at a
time so that the recursion is structural. -/
def scanAux (tryf : List Char → Option Nat) (repl : List Char) :
    Nat → List Char → List Char
  | _, [] => []
  | k+1, _ :: rest => scanAux tryf repl k rest
  | 0, c :: rest =>
    match tryf (c :: rest) with
    | some n => repl ++ scanAux tryf repl (n - 1) rest
    | none => c :: scanAux tryf repl 0 rest

/-- Entry point of the generic `re.sub` model. -/
def scan (tryf : List Char → Option Nat) (repl : List Char) (l : List Char) :
    List Char :=
  scanAux tryf repl 0 l

/-- Model of `re_url.sub("HTTPADDRESS", body)`. -/
def subUrl (l : List Char) : List Char := scan urlTry "HTTPADDRESS".data l

/-- Model of `re_email.sub("EMAILADDRESS", body)`. -/
def subEmail (l : List Char) : List Char := scan emailTry "EMAILADDRESS".data l

/-- Model of `re_hash.sub("HASH", body)`. -/
def subHash (l : List Char) : List Char := scan hashTry "HASH".data l

/-- Model of `re_non_word.sub(" ", body)`. -/
def subNonWord (l : List Char) : List Char := scan nwTry [' '] l

/-- Model of `re_number.sub("NUMBER", body)` for `\b\d+\b`: `prevWord` records
whether the character immediately before the current position is a word
character (deciding the left `\b`); the right `\b` holds when the character
after the maximal digit run is absent or not a word character.  If the right
boundary fails, no match starts anywhere inside the run (every inner position
has a digit on its left), so the scan advances by single characters, exactly as
`re.sub` does.  A skip counter consumes the tail of a replaced run so that the
recursion is structural. -/
def subNumberAux : Bool → Nat → List Char → List Char
  | _, _, [] => []
  | _, k+1, _ :: rest => subNumberAux true k rest
  | prevWord, 0, c :: rest =>
    if !prevWord && c.isDigit && boundaryAfter (rest.dropWhile Char.isDigit) then
      "NUMBER".data ++ subNumberAux true (rest.takeWhile Char.isDigit).length rest
    else
      c :: subNumberAux (isWordChar c) 0 rest

/-- Entry point of the `re_number.sub` model: at the start of the string the
left `\b` context is empty, hence not a word character. -/
def subNumber (l : List Char) : List Char := subNumberAux false 0 l

/-- Model of Python `str.strip()` over the ASCII whitespace characters. -/
def stripWs (l : List Char) : List Char :=
  ((l.dropWhile Char.isWhitespace).reverse.dropWhile Char.isWhitespace).reverse

/-- Worker for the model of Python `str.split()` with no argument: split on
maximal whitespace runs, keeping only non-empty pieces.  `acc` holds the
current word, reversed. -/
def splitWsAux (acc : List Char) : List Char → List (List Char)
  | [] => if acc.isEmpty then [] else [acc.reverse]
  | c :: rest =>
    if c.isWhitespace then
      if acc.isEmpty then splitWsAux [] rest
      else acc.reverse :: splitWsAux [] rest
    else splitWsAux (c :: acc) rest

/-- Model of Python `str.split()` with no argument. -/
def splitWs (l : List Char) : List (List Char) := splitWsAux [] l

/-- Shape filter from the final list comprehension of `email_body_to_words`:
`len(word) <= 20 and not "_" in word and not any(ch.isdigit() for ch in word)`. -/
def keepWord (w : List Char) : Bool :=
  decide (w.length ≤ 20) && !(w.contains '_') && !(w.any Char.isDigit)

/-- Shallow embedding of `email_body_to_words(body, stopwords, stemmer)`.
The notebook reads the stopword list and the stemming function from `nltk` as
read-only configuration; they are parameters here. -/
def email_body_to_words (body : List Char) (stopwords : List (List Char))
    (stemmer : List Char → List Char) : List (List Char) :=
  let b1 := body.map Char.toLower
  let b2 := subUrl b1
  let b3 := subEmail b2
  let b4 := subHash b3
  let b5 := subNumber b4
  let b6 := subNonWord b5
  let b7 := stripWs b6
  let words := ((splitWs b7).filter (fun w => !(stopwords.contains w))).map stemmer
  words.filter keepWord

/-- First five steps of `email_body_to_words`: lowercasing followed by the four
marker substitutions in source order (URL, e-mail address, hash, number). -/
def substitutionSteps (body : List Char) : List Char :=
  subNumber (subHash (subEmail (subUrl (body.map Char.toLower))))

/-- Model of `vocab_set = set(itertools.chain(*ham)).union(set(itertools.chain(*spam)))`:
the Python set is represented by a duplicate-free list of all tokens. -/
def vocab_set (ham spam : List (List (List Char))) : List (List Char) :=
  (ham.flatten ++ spam.flatten).dedup

/-- Model of `sorted(list(vocab_set))`: Python sorts strings in ascending
lexicographic codepoint order, which is the order `≤` of `List Char`. -/
def vocabList (ham spam : List (List (List Char))) : List (List Char) :=
  List.insertionSort (· ≤ ·) (vocab_set ham spam)

/-- Model of `vocab = {word: index for index, word in enumerate(sorted(list(vocab_set)))}`
as an association list from token to integer identifier. -/
def vocab (ham spam : List (List (List Char))) : List (List Char × Nat) :=
  (vocabList ham spam).enum.map (fun p => (p.2, p.1))

/-! Basic properties of the generic scanner. -/

theorem scanAux_skip (tryf : List Char → Option Nat) (repl : List Char) :
    ∀ (l : List Char) (k : Nat),
      scanAux tryf repl k l = scanAux tryf repl 0 (l.drop k) := by
  intro l
  induction l with
  | nil => intro k; cases k <;> simp [scanAux]
  | cons c rest ih =>
    intro k
    cases k with
    | zero => simp
    | succ k => simpa [scanAux, List.drop_succ_cons] using ih k

theorem scan_cons_of_none (tryf : List Char → Option Nat) (repl : List Char)
    (c : Char) (rest : List Char) (h : tryf (c :: rest) = none) :
    scan tryf repl (c :: rest) = c :: scan tryf repl rest := by
  simp [scan, scanAux, h]

theorem scan_cons_of_some (tryf : List Char → Option Nat) (repl : List Char)
    (c : Char) (rest : List Char) (n : Nat) (h : tryf (c :: rest) = some n)
    (h1 : 1 ≤ n) :
    scan tryf repl (c :: rest) = repl ++ scan tryf repl ((c :: rest).drop n) := by
  have hd : (c :: rest).drop n = rest.drop (n - 1) := by
    cases n with
    | zero => omega
    | succ m => simp [List.drop_succ_cons]
  simp [scan, scanAux, h, hd, scanAux_skip tryf repl rest (n - 1)]

theorem scan_split (tryf : List Char → Option Nat) (repl : List Char)
    (c : Char) (y : List Char)
    (hone : ∀ l n, tryf l = some n → 1 ≤ n)
    (hbound : ∀ l n, tryf l = some n → n ≤ l.length)
    (hsplit : ∀ x, tryf (x ++ c :: y) = tryf x) :
    ∀ x, scan tryf repl (x ++ c :: y) =
      scan tryf repl x ++ c :: scan tryf repl y := by
  have hnil : tryf [] = none := by
    cases htry : tryf [] with
    | none => rfl
    | some n =>
      have h1 := hone [] n htry
      have h2 := hbound [] n htry
      simp at h2
      omega
  have hbase : scan tryf repl ([] ++ c :: y) =
      scan tryf repl [] ++ c :: scan tryf repl y := by
    have h0 : tryf (c :: y) = none := by
      have := hsplit []
      simpa [hnil] using this
    simpa using scan_cons_of_none tryf repl c y h0
  suffices H : ∀ (fuel : Nat) (x : List Char), x.length ≤ fuel →
      scan tryf repl (x ++ c :: y) = scan tryf repl x ++ c :: scan tryf repl y by
    exact fun x => H x.length x le_rfl
  intro fuel
  induction fuel with
  | zero =>
    intro x hx
    have hx0 : x = [] := List.length_eq_zero.mp (Nat.le_zero.mp hx)
    subst hx0
    exact hbase
  | succ fuel ih =>
    intro x hx
    cases x with
    | nil => exact hbase
    | cons d x' =>
      cases htry : tryf (d :: x') with
      | none =>
        have hcomb : tryf (d :: (x' ++ c :: y)) = none := by
          have := hsplit (d :: x')
          simpa [htry] using this
        have hlen : x'.length ≤ fuel := by
          simp at hx
          omega
        calc scan tryf repl ((d :: x') ++ c :: y)
            = d :: scan tryf repl (x' ++ c :: y) := by
              simpa using scan_cons_of_none tryf repl d (x' ++ c :: y) hcomb
          _ = d :: (scan tryf repl x' ++ c :: scan tryf repl y) := by
              rw [ih x' hlen]
          _ = scan tryf repl (d :: x') ++ c :: scan tryf repl y := by
              rw [scan_cons_of_none tryf repl d x' htry]
              rfl
      | some n =>
        have h1 := hone _ _ htry
        have hb := hbound _ _ htry
        have hcomb : tryf (d :: (x' ++ c :: y)) = some n := by
          have := hsplit (d :: x')
          simpa [htry] using this
        have hdrop : (d :: (x' ++ c :: y)).drop n = (d :: x').drop n ++ c :: y := by
          have : (d :: x') ++ c :: y = d :: (x' ++ c :: y) := rfl
          rw [← this]
          exact List.drop_append_of_le_length hb
        have hlen : ((d :: x').drop n).length ≤ fuel := by
          simp [List.length_drop] at *
          omega
        calc scan tryf repl ((d :: x') ++ c :: y)
            = repl ++ scan tryf repl ((d :: (x' ++ c :: y)).drop n) := by
              simpa using scan_cons_of_some tryf repl d (x' ++ c :: y) n hcomb h1
          _ = repl ++ scan tryf repl ((d :: x').drop n ++ c :: y) := by rw [hdrop]
          _ = repl ++ (scan tryf repl ((d :: x').drop n) ++ c :: scan tryf repl y) := by
              rw [ih _ hlen]
          _ = scan tryf repl (d :: x') ++ c :: scan tryf repl y := by
              rw [scan_cons_of_some tryf repl d x' n htry h1]
              simp

theorem scan_eq_self (tryf : List Char → Option Nat) (repl : List Char) :
    ∀ l : List Char, (∀ v : List Char, v <:+ l → tryf v = none) →
      scan tryf repl l = l := by
  intro l
  induction l with
  | nil => intro _; rfl
  | cons c rest ih =>
    intro h
    rw [scan_cons_of_none tryf repl c rest (h (c :: rest) (List.suffix_refl _)),
      ih (fun v hv => h v (hv.trans (List.suffix_cons c rest)))]

/-! Splitting lemmas for list primitives at a separator character. -/

theorem takeWhile_append_cons (p : Char → Bool) (c : Char) (y : List Char)
    (hc : p c = false) :
    ∀ x : List Char, (x ++ c :: y).takeWhile p = x.takeWhile p := by
  intro x
  induction x with
  | nil => simp [List.takeWhile_cons, hc]
  | cons d x ih => by_cases hd : p d = true <;> simp [List.takeWhile_cons, hd, ih]

theorem dropWhile_append_cons (p : Char → Bool) (c : Char) (y : List Char)
    (hc : p c = false) :
    ∀ x : List Char, (x ++ c :: y).dropWhile p = x.dropWhile p ++ c :: y := by
  intro x
  induction x with
  | nil => simp [List.dropWhile_cons, hc]
  | cons d x ih => by_cases hd : p d = true <;> simp [List.dropWhile_cons, hd, ih]

theorem startsWith_append_cons (c : Char) (y : List Char) :
    ∀ (p x : List Char), c ∉ p → startsWith p (x ++ c :: y) = startsWith p x := by
  intro p
  induction p with
  | nil => intro x _; rfl
  | cons a ps ih =>
    intro x hc
    cases x with
    | nil =>
      have hne : (a == c) = false := by
        simp only [List.mem_cons, not_or] at hc
        simpa [beq_iff_eq] using fun h => hc.1 h.symm
      simp [startsWith, hne]
    | cons d xs =>
      have hcp : c ∉ ps := fun h => hc (List.mem_cons_of_mem a h)
      simp [startsWith, ih xs hcp]

theorem startsWith_length : ∀ (p l : List Char),
    startsWith p l = true → p.length ≤ l.length := by
  intro p
  induction p with
  | nil => intro l _; simp
  | cons a ps ih =>
    intro l h
    cases l with
    | nil => simp [startsWith] at h
    | cons c cs =>
      simp [startsWith] at h
      simpa using ih cs h.2

theorem drop_length_takeWhile (p : Char → Bool) :
    ∀ l : List Char, l.drop (l.takeWhile p).length = l.dropWhile p := by
  intro l
  induction l with
  | nil => rfl
  | cons c rest ih =>
    by_cases hc : p c = true <;>
      simp [List.takeWhile_cons, List.dropWhile_cons, hc, ih]

theorem boundaryAfter_append_cons (c : Char) (v : List Char)
    (hc : isWordChar c = false) :
    ∀ u : List Char, boundaryAfter (u ++ c :: v) = boundaryAfter u := by
  intro u
  cases u with
  | nil => simp [boundaryAfter, hc]
  | cons d us => rfl

/-! Pointwise character facts, reduced to natural-number intervals on codepoints. -/

theorem uintVal_le_iff (a b : UInt32) : a ≤ b ↔ a.toNat ≤ b.toNat := by
  rw [UInt32.le_def, BitVec.le_def]
  exact Iff.rfl

theorem charVal_le_iff (a b : Char) : a ≤ b ↔ a.val.toNat ≤ b.val.toNat := by
  rw [Char.le_def]
  exact uintVal_le_iff a.val b.val

theorem isDigit_iff (c : Char) :
    c.isDigit = true ↔ 48 ≤ c.val.toNat ∧ c.val.toNat ≤ 57 := by
  have e1 : (48 : UInt32).toNat = 48 := by decide
  have e2 : (57 : UInt32).toNat = 57 := by decide
  simp [Char.isDigit, ge_iff_le, uintVal_le_iff, e1, e2]
  norm_num [UInt32.size]

theorem isLower_iff (c : Char) :
    c.isLower = true ↔ 97 ≤ c.val.toNat ∧ c.val.toNat ≤ 122 := by
  have e1 : (97 : UInt32).toNat = 97 := by decide
  have e2 : (122 : UInt32).toNat = 122 := by decide
  simp [Char.isLower, ge_iff_le, uintVal_le_iff, e1, e2]
  norm_num [UInt32.size]

theorem isHexLower_iff (c : Char) :
    isHexLower c = true ↔
      (48 ≤ c.val.toNat ∧ c.val.toNat ≤ 57) ∨
        (97 ≤ c.val.toNat ∧ c.val.toNat ≤ 102) := by
  have ea : ('a' : Char).val.toNat = 97 := by decide
  have ef : ('f' : Char).val.toNat = 102 := by decide
  simp [isHexLower, isDigit_iff, charVal_le_iff, ea, ef]
  norm_num [UInt32.size]

theorem isLocalChar_of_isHexLower (c : Char) (h : isHexLower c = true) :
    isLocalChar c = true := by
  rcases (isHexLower_iff c).mp h with hd | hl
  · have hdig : c.isDigit = true := (isDigit_iff c).mpr hd
    simp [isLocalChar, Char.isAlphanum, hdig]
  · have hlow : c.isLower = true := (isLower_iff c).mpr ⟨hl.1, by omega⟩
    simp [isLocalChar, Char.isAlphanum, Char.isAlpha, hlow]

theorem toLower_of_isHexLower (c : Char) (h : isHexLower c = true) :
    c.toLower = c := by
  rcases (isHexLower_iff c).mp h with hd | hl <;>
  · simp only [Char.toLower, Char.toNat]
    split
    · omega
    · rfl

/-! Properties of the three marker matchers. -/

theorem urlHeadLen_append_cons (x y : List Char) :
    urlHeadLen (x ++ ' ' :: y) = urlHeadLen x := by
  unfold urlHeadLen
  rw [startsWith_append_cons ' ' y "https://".data x (by decide)]

theorem startsWith_head_eq (a : Char) (ps : List Char) (c : Char) (rest : List Char)
    (h : startsWith (a :: ps) (c :: rest) = true) : a = c := by
  simp only [startsWith, Bool.and_eq_true, beq_iff_eq] at h
  exact h.1

theorem urlHeadLen_le (l : List Char)
    (h : (startsWith "http://".data l || startsWith "https://".data l) = true) :
    7 ≤ urlHeadLen l ∧ urlHeadLen l ≤ l.length := by
  unfold urlHeadLen
  by_cases h8 : startsWith "https://".data l = true
  · have := startsWith_length "https://".data l h8
    simp at this
    simp [h8]
    omega
  · have h7 : startsWith "http://".data l = true := by
      cases hb : startsWith "http://".data l with
      | true => rfl
      | false =>
        rw [hb] at h
        simp at h
        exact absurd h h8
    have := startsWith_length "http://".data l h7
    simp at this
    simp [h8]
    omega

theorem urlTry_append_cons (x y : List Char) :
    urlTry (x ++ ' ' :: y) = urlTry x := by
  unfold urlTry
  rw [urlHeadLen_append_cons,
    startsWith_append_cons ' ' y "http://".data x (by decide),
    startsWith_append_cons ' ' y "https://".data x (by decide)]
  cases hor : (startsWith "http://".data x || startsWith "https://".data x) with
  | false => simp [hor]
  | true =>
    have hlen : urlHeadLen x ≤ x.length := (urlHeadLen_le x hor).2
    rw [List.drop_append_of_le_length hlen,
      takeWhile_append_cons isUrlChar ' ' y (by decide) (x.drop (urlHeadLen x))]

theorem urlTry_bounds (l : List Char) (n : Nat) (h : urlTry l = some n) :
    1 ≤ n ∧ n ≤ l.length := by
  unfold urlTry at h
  split at h
  · rename_i hcond
    simp only [Option.some.injEq] at h
    simp only [Bool.and_eq_true] at hcond
    have hhead := urlHeadLen_le l hcond.1
    have htake : ((l.drop (urlHeadLen l)).takeWhile isUrlChar).length ≤
        l.length - urlHeadLen l := by
      have := (@List.takeWhile_sublist Char (l.drop (urlHeadLen l)) isUrlChar).length_le
      simpa [List.length_drop] using this
    omega
  · exact absurd h (by simp)

theorem urlTry_of_hex (l : List Char) (h : ∀ a ∈ l, isHexLower a = true) :
    urlTry l = none := by
  have hstart : ∀ ps : List Char, startsWith ('h' :: ps) l = false := by
    intro ps
    cases l with
    | nil => rfl
    | cons c rest =>
      cases hb : startsWith ('h' :: ps) (c :: rest) with
      | false => rfl
      | true =>
        have hc := startsWith_head_eq 'h' ps c rest hb
        have hh := h c (List.mem_cons_self c rest)
        rw [← hc] at hh
        exact absurd hh (by decide)
  have h7 : startsWith "http://".data l = false := hstart "ttp://".data
  have h8 : startsWith "https://".data l = false := hstart "ttps://".data
  unfold urlTry
  simp [h7, h8]

theorem length_takeWhile_add_dropWhile (p : Char → Bool) (l : List Char) :
    (l.takeWhile p).length + (l.dropWhile p).length = l.length := by
  rw [← List.length_append, List.takeWhile_append_dropWhile]

theorem emailTry_append_cons (x y : List Char) :
    emailTry (x ++ ' ' :: y) = emailTry x := by
  have hl : isLocalChar ' ' = false := by decide
  have hd : isDomChar ' ' = false := by decide
  have hdd : isDomDotChar ' ' = false := by decide
  have s1 := takeWhile_append_cons isLocalChar ' ' y hl x
  have s2 := dropWhile_append_cons isLocalChar ' ' y hl x
  simp only [emailTry, s1, s2]
  cases hA : x.dropWhile isLocalChar with
  | nil =>
    simp only [hA, List.nil_append, List.head?_cons, List.head?_nil]
    have e1 : ((some ' ' == some '@') : Bool) = false := by decide
    have e2 : (((none : Option Char) == some '@') : Bool) = false := by decide
    simp [e1, e2]
  | cons a A =>
    simp only [hA, List.cons_append, List.head?_cons]
    by_cases ha : a = '@'
    · subst ha
      simp only [List.drop_succ_cons, List.drop_zero]
      have s3 := takeWhile_append_cons isDomChar ' ' y hd A
      have s4 := dropWhile_append_cons isDomChar ' ' y hd A
      simp only [s3, s4]
      cases hB : A.dropWhile isDomChar with
      | nil =>
        simp only [hB, List.nil_append, List.head?_cons, List.head?_nil]
        have e1 : ((some ' ' == some '.') : Bool) = false := by decide
        have e2 : (((none : Option Char) == some '.') : Bool) = false := by decide
        simp [e1, e2]
      | cons b B =>
        simp only [List.cons_append, List.head?_cons]
        by_cases hb : b = '.'
        · subst hb
          simp only [List.drop_succ_cons, List.drop_zero]
          have s5 := takeWhile_append_cons isDomDotChar ' ' y hdd B
          simp only [s5]
        · have e1 : ((some b == some '.') : Bool) = false := by
            simp [hb]
          simp [e1]
    · have e1 : ((some a == some '@') : Bool) = false := by
        simp [ha]
      simp [e1]

theorem emailTry_bounds (l : List Char) (n : Nat) (h : emailTry l = some n) :
    1 ≤ n ∧ n ≤ l.length := by
  simp only [emailTry] at h
  split at h
  · rename_i hcond
    simp only [Option.some.injEq] at h
    simp only [Bool.and_eq_true, beq_iff_eq] at hcond
    obtain ⟨⟨⟨⟨hloc, hat⟩, hd1⟩, hdot⟩, hd2⟩ := hcond
    have e0 := length_takeWhile_add_dropWhile isLocalChar l
    obtain ⟨t1, ht1⟩ : ∃ t, l.dropWhile isLocalChar = '@' :: t := by
      cases hr : l.dropWhile isLocalChar with
      | nil => rw [hr] at hat; simp at hat
      | cons u t =>
        rw [hr] at hat
        simp at hat
        exact ⟨t, by rw [hat]⟩
    have e1 := length_takeWhile_add_dropWhile isDomChar ((l.dropWhile isLocalChar).drop 1)
    obtain ⟨t2, ht2⟩ :
        ∃ t, ((l.dropWhile isLocalChar).drop 1).dropWhile isDomChar = '.' :: t := by
      cases hr : ((l.dropWhile isLocalChar).drop 1).dropWhile isDomChar with
      | nil => rw [hr] at hdot; simp at hdot
      | cons u t =>
        rw [hr] at hdot
        simp at hdot
        exact ⟨t, by rw [hdot]⟩
    have e2 : ((((l.dropWhile isLocalChar).drop 1).dropWhile isDomChar).drop 1).length
        = t2.length := by rw [ht2]; simp
    have e3 :
        (((((l.dropWhile isLocalChar).drop 1).dropWhile isDomChar).drop 1).takeWhile
            isDomDotChar).length ≤ t2.length := by
      rw [← e2]
      exact (List.takeWhile_sublist isDomDotChar).length_le
    have e4 : (l.dropWhile isLocalChar).length = 1 + t1.length := by rw [ht1]; simp; omega
    have e5 : ((l.dropWhile isLocalChar).drop 1).length = t1.length := by rw [ht1]; simp
    have e6 : (((l.dropWhile isLocalChar).drop 1).dropWhile isDomChar).length
        = 1 + t2.length := by rw [ht2]; simp; omega
    omega
  · exact absurd h (by simp)

theorem emailTry_of_hex (l : List Char) (h : ∀ a ∈ l, isHexLower a = true) :
    emailTry l = none := by
  have hdrop : l.dropWhile isLocalChar = [] :=
    List.dropWhile_eq_nil_iff.mpr (fun a ha => isLocalChar_of_isHexLower a (h a ha))
  simp only [emailTry, hdrop, List.head?_nil]
  have e2 : (((none : Option Char) == some '@') : Bool) = false := by decide
  simp [e2]

theorem hashTry_append_cons (x y : List Char) :
    hashTry (x ++ ' ' :: y) = hashTry x := by
  unfold hashTry
  by_cases hx : 32 ≤ x.length
  · rw [List.take_append_of_le_length hx]
    have h3 : 32 ≤ x.length + (y.length + 1) := by omega
    simp [hx, h3]
  · by_cases h2 : 32 ≤ (x ++ ' ' :: y).length
    · have htk : (x ++ ' ' :: y).take 32 = x ++ (' ' :: y).take (32 - x.length) := by
        rw [List.take_append_eq_append_take, List.take_of_length_le (by omega)]
      have hmem : ' ' ∈ (x ++ ' ' :: y).take 32 := by
        rw [htk]
        refine List.mem_append_right x ?_
        cases hk : 32 - x.length with
        | zero => omega
        | succ k => simp
      have hall : ((x ++ ' ' :: y).take 32).all isHexLower = false := by
        cases hb : ((x ++ ' ' :: y).take 32).all isHexLower with
        | false => rfl
        | true =>
          have := List.all_eq_true.mp hb ' ' hmem
          exact absurd this (by decide)
      simp [hall, hx]
    · have h3 : ¬ 32 ≤ x.length + (y.length + 1) := by
        simp [List.length_append] at h2
        omega
      simp [hx, h3]

theorem hashTry_bounds (l : List Char) (n : Nat) (h : hashTry l = some n) :
    1 ≤ n ∧ n ≤ l.length := by
  unfold hashTry at h
  split at h
  · rename_i hc
    simp only [Option.some.injEq] at h
    simp only [Bool.and_eq_true, decide_eq_true_eq] at hc
    omega
  · exact absurd h (by simp)

theorem hashTry_of_hex_ge (l : List Char) (hall : ∀ a ∈ l, isHexLower a = true)
    (h : 32 ≤ l.length) : hashTry l = some 32 := by
  unfold hashTry
  have htk : (l.take 32).all isHexLower = true :=
    List.all_eq_true.mpr (fun a ha => hall a ((List.take_sublist 32 l).subset ha))
  simp [h, htk]

theorem hashTry_of_lt (l : List Char) (h : l.length < 32) : hashTry l = none := by
  unfold hashTry
  have h2 : ¬ 32 ≤ l.length := by omega
  simp [h2]

/-! Behaviour of the four substitutions around a separating space and on
hexadecimal runs. -/

theorem subUrl_append_cons (x y : List Char) :
    subUrl (x ++ ' ' :: y) = subUrl x ++ ' ' :: subUrl y :=
  scan_split urlTry "HTTPADDRESS".data ' ' y
    (fun l n h => (urlTry_bounds l n h).1)
    (fun l n h => (urlTry_bounds l n h).2)
    (fun u => urlTry_append_cons u y) x

theorem subEmail_append_cons (x y : List Char) :
    subEmail (x ++ ' ' :: y) = subEmail x ++ ' ' :: subEmail y :=
  scan_split emailTry "EMAILADDRESS".data ' ' y
    (fun l n h => (emailTry_bounds l n h).1)
    (fun l n h => (emailTry_bounds l n h).2)
    (fun u => emailTry_append_cons u y) x

theorem subHash_append_cons (x y : List Char) :
    subHash (x ++ ' ' :: y) = subHash x ++ ' ' :: subHash y :=
  scan_split hashTry "HASH".data ' ' y
    (fun l n h => (hashTry_bounds l n h).1)
    (fun l n h => (hashTry_bounds l n h).2)
    (fun u => hashTry_append_cons u y) x

theorem subUrl_of_hex (l : List Char) (h : ∀ a ∈ l, isHexLower a = true) :
    subUrl l = l :=
  scan_eq_self urlTry "HTTPADDRESS".data l
    (fun v hv => urlTry_of_hex v (fun a ha => h a (hv.sublist.subset ha)))

theorem subEmail_of_hex (l : List Char) (h : ∀ a ∈ l, isHexLower a = true) :
    subEmail l = l :=
  scan_eq_self emailTry "EMAILADDRESS".data l
    (fun v hv => emailTry_of_hex v (fun a ha => h a (hv.sublist.subset ha)))

theorem subHash_of_short (l : List Char) (h : l.length < 32) : subHash l = l :=
  scan_eq_self hashTry "HASH".data l
    (fun v hv => hashTry_of_lt v (by have := hv.sublist.length_le; omega))

theorem subHash_of_hex32 (l : List Char) (hall : ∀ a ∈ l, isHexLower a = true)
    (hlen : l.length = 32) : subHash l = "HASH".data := by
  cases l with
  | nil => simp at hlen
  | cons c rest =>
    have htry : hashTry (c :: rest) = some 32 :=
      hashTry_of_hex_ge (c :: rest) hall (by omega)
    have h32 : (c :: rest).drop 32 = [] := by
      rw [← hlen]
      exact List.drop_length _
    rw [show subHash (c :: rest) = scan hashTry "HASH".data (c :: rest) from rfl,
      scan_cons_of_some hashTry "HASH".data c rest 32 htry (by omega), h32]
    rfl

theorem subHash_hex_windows (l : List Char) (h : ∀ a ∈ l, isHexLower a = true) :
    subHash l = (List.replicate (l.length / 32) "HASH".data).flatten
      ++ l.drop (32 * (l.length / 32)) := by
  suffices H : ∀ (fuel : Nat) (l : List Char), l.length ≤ fuel →
      (∀ a ∈ l, isHexLower a = true) →
      subHash l = (List.replicate (l.length / 32) "HASH".data).flatten
        ++ l.drop (32 * (l.length / 32)) by
    exact H l.length l le_rfl h
  intro fuel
  induction fuel with
  | zero =>
    intro l hl _
    have hnil : l = [] := List.length_eq_zero.mp (Nat.le_zero.mp hl)
    subst hnil
    rfl
  | succ fuel ih =>
    intro l hl hhex
    by_cases h32 : 32 ≤ l.length
    · cases l with
      | nil => simp at h32
      | cons c rest =>
        have htry : hashTry (c :: rest) = some 32 := hashTry_of_hex_ge _ hhex h32
        have hdhex : ∀ a ∈ (c :: rest).drop 32, isHexLower a = true :=
          fun a ha => hhex a ((List.drop_sublist 32 (c :: rest)).subset ha)
        have hlen2 : ((c :: rest).drop 32).length ≤ fuel := by
          simp [List.length_drop] at hl ⊢
          omega
        rw [show subHash (c :: rest) = scan hashTry "HASH".data (c :: rest) from rfl,
          scan_cons_of_some hashTry "HASH".data c rest 32 htry (by omega),
          show scan hashTry "HASH".data ((c :: rest).drop 32)
            = subHash ((c :: rest).drop 32) from rfl,
          ih ((c :: rest).drop 32) hlen2 hdhex]
        have hldrop : ((c :: rest).drop 32).length = (c :: rest).length - 32 :=
          List.length_drop 32 (c :: rest)
        have hdiv : (c :: rest).length / 32 = ((c :: rest).length - 32) / 32 + 1 := by
          have hcan : (c :: rest).length - 32 + 32 = (c :: rest).length :=
            Nat.sub_add_cancel h32
          calc (c :: rest).length / 32
              = ((c :: rest).length - 32 + 32) / 32 := by rw [hcan]
            _ = ((c :: rest).length - 32) / 32 + 1 := Nat.add_div_right _ (by norm_num)
        rw [hldrop, hdiv, List.replicate_succ, List.flatten_cons, List.append_assoc,
          List.drop_drop]
        congr 2
        exact congrArg (fun n => List.drop n (c :: rest)) (by ring)
    · have hsh : subHash l = l := subHash_of_short l (by omega)
      have hdv : l.length / 32 = 0 := Nat.div_eq_of_lt (by omega)
      simp [hsh, hdv]

/-! Behaviour of the number substitution. -/

theorem subNumberAux_skip : ∀ (l : List Char) (k : Nat) (p : Bool),
    subNumberAux p (k + 1) l = subNumberAux true 0 (l.drop (k + 1)) := by
  intro l
  induction l with
  | nil => intro k p; simp [subNumberAux]
  | cons c rest ih =>
    intro k p
    cases k with
    | zero => simp [subNumberAux]
    | succ k =>
      calc subNumberAux p (k + 2) (c :: rest)
          = subNumberAux true (k + 1) rest := rfl
        _ = subNumberAux true 0 (rest.drop (k + 1)) := ih k true
        _ = subNumberAux true 0 ((c :: rest).drop (k + 2)) := by
            rw [List.drop_succ_cons]

theorem subNumberAux_cons (p : Bool) (c : Char) (rest : List Char) :
    subNumberAux p 0 (c :: rest) =
      if !p && c.isDigit && boundaryAfter (rest.dropWhile Char.isDigit) then
        "NUMBER".data ++ subNumberAux true 0 (rest.dropWhile Char.isDigit)
      else c :: subNumberAux (isWordChar c) 0 rest := by
  have hskip : subNumberAux true (rest.takeWhile Char.isDigit).length rest
      = subNumberAux true 0 (rest.dropWhile Char.isDigit) := by
    cases hk : (rest.takeWhile Char.isDigit).length with
    | zero =>
      rw [← drop_length_takeWhile Char.isDigit rest, hk]
      rfl
    | succ k =>
      rw [subNumberAux_skip rest k true, ← drop_length_takeWhile Char.isDigit rest, hk]
  calc subNumberAux p 0 (c :: rest)
      = if !p && c.isDigit && boundaryAfter (rest.dropWhile Char.isDigit) then
          "NUMBER".data ++ subNumberAux true (rest.takeWhile Char.isDigit).length rest
        else c :: subNumberAux (isWordChar c) 0 rest := rfl
    _ = _ := by rw [hskip]

theorem subNumberAux_append_cons (x y : List Char) :
    ∀ p, subNumberAux p 0 (x ++ ' ' :: y) =
      subNumberAux p 0 x ++ ' ' :: subNumberAux false 0 y := by
  suffices H : ∀ (fuel : Nat) (x : List Char), x.length ≤ fuel → ∀ p,
      subNumberAux p 0 (x ++ ' ' :: y) =
        subNumberAux p 0 x ++ ' ' :: subNumberAux false 0 y by
    exact H x.length x le_rfl
  intro fuel
  induction fuel with
  | zero =>
    intro x hx p
    have hnil : x = [] := List.length_eq_zero.mp (Nat.le_zero.mp hx)
    subst hnil
    rw [List.nil_append, subNumberAux_cons p ' ' y]
    have h1 : (' ' : Char).isDigit = false := by decide
    have h2 : isWordChar ' ' = false := by decide
    simp [h1, h2, show subNumberAux p 0 ([] : List Char) = [] from rfl]
  | succ fuel ih =>
    intro x hx p
    cases x with
    | nil =>
      rw [List.nil_append, subNumberAux_cons p ' ' y]
      have h1 : (' ' : Char).isDigit = false := by decide
      have h2 : isWordChar ' ' = false := by decide
      simp [h1, h2, show subNumberAux p 0 ([] : List Char) = [] from rfl]
    | cons c x' =>
      have hdw : (x' ++ ' ' :: y).dropWhile Char.isDigit
          = x'.dropWhile Char.isDigit ++ ' ' :: y :=
        dropWhile_append_cons Char.isDigit ' ' y (by decide) x'
      have hba : boundaryAfter ((x' ++ ' ' :: y).dropWhile Char.isDigit)
          = boundaryAfter (x'.dropWhile Char.isDigit) := by
        rw [hdw]
        exact boundaryAfter_append_cons ' ' y (by decide) (x'.dropWhile Char.isDigit)
      rw [List.cons_append, subNumberAux_cons p c (x' ++ ' ' :: y), hba,
        subNumberAux_cons p c x']
      by_cases hg : (!p && c.isDigit
          && boundaryAfter (x'.dropWhile Char.isDigit)) = true
      · have hlen : (x'.dropWhile Char.isDigit).length ≤ fuel := by
          have h1 := (@List.dropWhile_sublist Char x' Char.isDigit).length_le
          simp at hx
          omega
        rw [if_pos hg, if_pos hg, hdw, ih (x'.dropWhile Char.isDigit) hlen true,
          List.append_assoc]
      · have hlen : x'.length ≤ fuel := by
          simp at hx
          omega
        rw [if_neg hg, if_neg hg, ih x' hlen (isWordChar c)]
        rfl

theorem subNumberAux_of_noDigit (l : List Char) (h : ∀ a ∈ l, a.isDigit = false) :
    ∀ p, subNumberAux p 0 l = l := by
  induction l with
  | nil => intro p; rfl
  | cons c rest ih =>
    intro p
    have hc : c.isDigit = false := h c (List.mem_cons_self c rest)
    rw [subNumberAux_cons p c rest]
    have hrest : ∀ a ∈ rest, a.isDigit = false :=
      fun a ha => h a (List.mem_cons_of_mem c ha)
    simp [hc, ih hrest]

theorem map_toLower_of_hex (l : List Char) (h : ∀ a ∈ l, isHexLower a = true) :
    l.map Char.toLower = l := by
  induction l with
  | nil => rfl
  | cons c rest ih =>
    rw [List.map_cons, toLower_of_isHexLower c (h c (List.mem_cons_self c rest)),
      ih (fun a ha => h a (List.mem_cons_of_mem c ha))]

/-! Soundness of the split model, membership helpers, and vocabulary facts. -/

theorem contains_eq_false_iff {α : Type} [BEq α] [LawfulBEq α]
    (l : List α) (a : α) :
    l.contains a = false ↔ a ∉ l := by
  constructor
  · intro h hm
    have he : List.elem a l = true := List.elem_iff.mpr hm
    rw [show l.contains a = List.elem a l from rfl, he] at h
    simp at h
  · intro h
    cases hc : l.contains a with
    | false => rfl
    | true =>
      have hm : a ∈ l := List.elem_iff.mp hc
      exact absurd hm h

theorem splitWsAux_sound :
    ∀ (l acc : List Char), (∀ c ∈ acc, c.isWhitespace = false) →
      ∀ w ∈ splitWsAux acc l, w ≠ [] ∧ ∀ c ∈ w, c.isWhitespace = false := by
  intro l
  induction l with
  | nil =>
    intro acc hacc w hw
    by_cases hae : acc.isEmpty = true
    · simp [splitWsAux, hae] at hw
    · simp [splitWsAux, hae] at hw
      subst hw
      have hne : acc ≠ [] := fun hc => hae (List.isEmpty_iff.mpr hc)
      refine ⟨by simpa [List.reverse_eq_nil_iff] using hne, ?_⟩
      intro c hc
      exact hacc c (List.mem_reverse.mp hc)
  | cons c rest ih =>
    intro acc hacc w hw
    by_cases hc : c.isWhitespace = true
    · by_cases hae : acc.isEmpty = true
      · simp [splitWsAux, hc, hae] at hw
        exact ih [] (by simp) w hw
      · simp [splitWsAux, hc, hae] at hw
        rcases hw with hw | hw
        · subst hw
          have hne : acc ≠ [] := fun hx => hae (List.isEmpty_iff.mpr hx)
          refine ⟨by simpa [List.reverse_eq_nil_iff] using hne, ?_⟩
          intro d hd
          exact hacc d (List.mem_reverse.mp hd)
        · exact ih [] (by simp) w hw
    · have hc' : c.isWhitespace = false := by
        cases hcc : c.isWhitespace with
        | false => rfl
        | true => exact absurd hcc hc
      simp [splitWsAux, hc'] at hw
      refine ih (c :: acc) ?_ w hw
      intro d hd
      rcases List.mem_cons.mp hd with hd | hd
      · rw [hd]; exact hc'
      · exact hacc d hd

theorem splitWs_sound (l : List Char) :
    ∀ w ∈ splitWs l, w ≠ [] ∧ ∀ c ∈ w, c.isWhitespace = false :=
  splitWsAux_sound l [] (by simp)

theorem lookup_enumFrom_swap (l : List (List Char)) :
    ∀ (hl : l.Nodup) (n i : Nat) (w : List Char), l[i]? = some w →
      List.lookup w ((List.enumFrom n l).map (fun p => (p.2, p.1))) = some (n + i) := by
  induction l with
  | nil => intro _ n i w h; simp at h
  | cons a t ih =>
    intro hl n i w h
    obtain ⟨ha, ht⟩ := List.nodup_cons.mp hl
    cases i with
    | zero =>
      have hw : a = w := by simpa using h
      subst hw
      simp [List.enumFrom_cons, List.lookup]
    | succ i =>
      have h' : t[i]? = some w := by simpa using h
      have hwt : w ∈ t := List.getElem?_mem h'
      have hne : (w == a) = false := by
        simp only [beq_eq_false_iff_ne]
        intro he
        rw [he] at hwt
        exact ha hwt
      rw [List.enumFrom_cons, List.map_cons]
      rw [show List.lookup w (((n, a).2, (n, a).1) ::
          (List.enumFrom (n + 1) t).map (fun p => (p.2, p.1)))
        = List.lookup w ((List.enumFrom (n + 1) t).map (fun p => (p.2, p.1))) from by
          simp [List.lookup, hne]]
      rw [ih ht (n + 1) i w h']
      congr 1
      omega

theorem count_eq_one_of_nodup_mem {α : Type} [BEq α] [LawfulBEq α] :
    ∀ (l : List α), l.Nodup → ∀ a ∈ l, l.count a = 1 := by
  intro l
  induction l with
  | nil => intro _ a ha; simp at ha
  | cons b t ih =>
    intro hnd a ha
    obtain ⟨hb, ht⟩ := List.nodup_cons.mp hnd
    rcases List.mem_cons.mp ha with he | hat
    · subst he
      have hz : t.count a = 0 := List.count_eq_zero.mpr hb
      rw [List.count_cons]
      simp [hz]
    · have hne : (a == b) = false := by
        simp only [beq_eq_false_iff_ne]
        intro he
        rw [he] at hat
        exact hb hat
      rw [List.count_cons]
      simp [hne, ih ht a hat]
      intro he
      exact (beq_eq_false_iff_ne.mp hne) he.symm

theorem vocabList_nodup (ham spam : List (List (List Char))) :
    (vocabList ham spam).Nodup :=
  (List.perm_insertionSort (· ≤ ·) (vocab_set ham spam)).symm.nodup
    (List.nodup_dedup _)

theorem vocabList_sorted (ham spam : List (List (List Char))) :
    (vocabList ham spam).Sorted (· ≤ ·) :=
  List.sorted_insertionSort (· ≤ ·) (vocab_set ham spam)

theorem mem_vocabList (ham spam : List (List (List Char))) (w : List Char) :
    w ∈ vocabList ham spam ↔ w ∈ ham.flatten ++ spam.flatten := by
  unfold vocabList vocab_set
  rw [(List.perm_insertionSort (· ≤ ·) _).mem_iff, List.mem_dedup]

theorem vocab_ext (h₁ s₁ h₂ s₂ : List (List (List Char)))
    (hm : ∀ w, w ∈ h₁.flatten ++ s₁.flatten ↔ w ∈ h₂.flatten ++ s₂.flatten) :
    vocab h₁ s₁ = vocab h₂ s₂ := by
  have hlist : vocabList h₁ s₁ = vocabList h₂ s₂ := by
    apply List.eq_of_perm_of_sorted ?_ (vocabList_sorted h₁ s₁) (vocabList_sorted h₂ s₂)
    apply (List.perm_ext_iff_of_nodup (vocabList_nodup h₁ s₁)
      (vocabList_nodup h₂ s₂)).mpr
    intro a
    rw [mem_vocabList, mem_vocabList]
    exact hm a
  unfold vocab
  rw [hlist]

/-! Claim theorems. -/

/-- C1 (counterexample): the end-to-end scenario of the specification is wrong
about the case of the marker tokens.  For the body
`"Hello, visit http://x.com now! Call 555 today."` with an empty stopword set
and the identity stemming function, the normalizer does not return the claimed
all-lowercase sequence: the markers are inserted after lowercasing and the
identity stemmer preserves their case. -/
theorem C1_counterexample :
    email_body_to_words "Hello, visit http://x.com now! Call 555 today.".data []
        (fun w => w) ≠
      ["hello".data, "visit".data, "httpaddress".data, "now".data, "call".data,
        "number".data, "today".data] := by
  decide

/-- C1 (amended): for that body, empty stopword set and identity stemming
function, the normalizer returns exactly
`["hello", "visit", "HTTPADDRESS", "now", "call", "NUMBER", "today"]`, in that
order — the substitution markers keep the upper case in which `re.sub` inserts
them, since lowercasing happens before substitution and the identity stemmer
does not lowercase. -/
theorem C1_scenario_uppercase_markers :
    email_body_to_words "Hello, visit http://x.com now! Call 555 today.".data []
        (fun w => w) =
      ["hello".data, "visit".data, "HTTPADDRESS".data, "now".data, "call".data,
        "NUMBER".data, "today".data] := by
  decide

/-- C2: the vocabulary maps each distinct token to its zero-based rank in
ascending lexicographic codepoint order: whenever the sorted distinct-token
list has `w` at index `i`, looking `w` up in the vocabulary yields `i`. -/
theorem C2_vocab_rank (ham spam : List (List (List Char))) (i : Nat) (w : List Char)
    (h : (vocabList ham spam)[i]? = some w) :
    List.lookup w (vocab ham spam) = some i := by
  have hmain := lookup_enumFrom_swap (vocabList ham spam) (vocabList_nodup ham spam)
    0 i w h
  simpa [vocab, List.enum_eq_enumFrom] using hmain

/-- C2 (witness): on the single ham collection `[["b", "a"]]` the token `"a"`
has rank 0 and the vocabulary maps it to 0. -/
theorem C2_vocab_rank_witness :
    List.lookup "a".data (vocab [["b".data, "a".data]] []) = some 0 :=
  C2_vocab_rank [["b".data, "a".data]] [] 0 "a".data (by decide)

/-- C3: every token produced by the normalizer, for every body, stopword set
and stemming function, has length at most 20, contains no underscore and
contains no digit — this is exactly the final shape filter. -/
theorem C3_token_shape (body : List Char) (stopwords : List (List Char))
    (stemmer : List Char → List Char) (w : List Char)
    (hw : w ∈ email_body_to_words body stopwords stemmer) :
    w.length ≤ 20 ∧ '_' ∉ w ∧ ∀ c ∈ w, c.isDigit = false := by
  simp only [email_body_to_words] at hw
  have hk : keepWord w = true := (List.mem_filter.mp hw).2
  simp only [keepWord, Bool.and_eq_true] at hk
  obtain ⟨⟨h1, h2⟩, h3⟩ := hk
  refine ⟨by simpa using h1, ?_, ?_⟩
  · rw [Bool.not_eq_true'] at h2
    exact (contains_eq_false_iff w '_').mp h2
  · rw [Bool.not_eq_true'] at h3
    intro c hc
    have hcd := List.any_eq_false.mp h3 c hc
    cases hcc : c.isDigit with
    | false => rfl
    | true => exact absurd hcc hcd

/-- C3 (witness): instantiated on the body `"ok"` with empty stopwords and the
identity stemmer, whose output contains the token `"ok"`. -/
theorem C3_token_shape_witness :
    "ok".data.length ≤ 20 ∧ '_' ∉ "ok".data ∧ ∀ c ∈ "ok".data, c.isDigit = false :=
  C3_token_shape "ok".data [] (fun w => w) "ok".data (by decide)

/-- C4: the hash substitution runs before the number substitution: for every
body of the form `a ++ " " ++ h ++ " " ++ b` where `h` is a standalone word of
exactly 32 lowercase hexadecimal characters, the substitution steps replace the
run by the single marker `HASH` (and the number step cannot touch its digits,
since they are gone before it runs — no `NUMBER` fragment arises from the run). -/
theorem C4_hash_before_number (a b h : List Char)
    (hhex : ∀ u ∈ h, isHexLower u = true) (hlen : h.length = 32) :
    substitutionSteps (a ++ ' ' :: (h ++ ' ' :: b)) =
      substitutionSteps a ++ ' ' :: ("HASH".data ++ ' ' :: substitutionSteps b) := by
  unfold substitutionSteps
  rw [List.map_append, List.map_cons, List.map_append, List.map_cons,
    map_toLower_of_hex h hhex]
  simp only [show Char.toLower ' ' = ' ' from rfl]
  rw [subUrl_append_cons, subUrl_append_cons, subUrl_of_hex h hhex,
    subEmail_append_cons, subEmail_append_cons, subEmail_of_hex h hhex,
    subHash_append_cons, subHash_append_cons, subHash_of_hex32 h hhex hlen]
  unfold subNumber
  rw [subNumberAux_append_cons, subNumberAux_append_cons,
    subNumberAux_of_noDigit "HASH".data (by decide) false]

/-- C4 (witness): the specification's own example
`"id abc123def456abc123def456abc123de checksum"`. -/
theorem C4_hash_before_number_witness :
    substitutionSteps ("id".data ++ ' ' ::
        ("abc123def456abc123def456abc123de".data ++ ' ' :: "checksum".data)) =
      substitutionSteps "id".data ++ ' ' :: ("HASH".data ++ ' ' ::
        substitutionSteps "checksum".data) :=
  C4_hash_before_number "id".data "checksum".data
    "abc123def456abc123def456abc123de".data (by decide) (by decide)

/-- C5 (counterexample): a stopword can appear in the output as the stemmed
form of a non-stopword, because stopword filtering happens before stemming on
the surface form: with stopword set `{"the"}` and a stemmer sending `"thee"` to
`"the"`, the body `"thee"` produces the output `["the"]`, which contains the
stopword. -/
theorem C5_counterexample :
    email_body_to_words "thee".data ["the".data]
        (fun w => if w = "thee".data then "the".data else w) = ["the".data]
    ∧ "the".data ∈ (["the".data] : List (List Char)) := by
  refine ⟨by decide, by decide⟩

/-- C5 (amended): stopword filtering applies to the surface form before
stemming: every output token is the stemmed form of some surface word that is
not in the stopword set; in particular, with the identity stemming function no
stopword ever appears in the output. -/
theorem C5_stopword_surface_filter (body : List Char) (stopwords : List (List Char))
    (stemmer : List Char → List Char) :
    (∀ w ∈ email_body_to_words body stopwords stemmer,
        ∃ v, v ∉ stopwords ∧ w = stemmer v)
    ∧ ∀ w ∈ email_body_to_words body stopwords (fun v => v), w ∉ stopwords := by
  have key : ∀ (st : List Char → List Char) (w : List Char),
      w ∈ email_body_to_words body stopwords st →
        ∃ v, v ∉ stopwords ∧ w = st v := by
    intro st w hw
    simp only [email_body_to_words] at hw
    have hw2 := (List.mem_filter.mp hw).1
    obtain ⟨v, hv, hveq⟩ := List.mem_map.mp hw2
    refine ⟨v, ?_, hveq.symm⟩
    have hv2 := (List.mem_filter.mp hv).2
    rw [Bool.not_eq_true'] at hv2
    exact (contains_eq_false_iff stopwords v).mp hv2
  refine ⟨key stemmer, ?_⟩
  intro w hw
  obtain ⟨v, hv, hveq⟩ := key (fun v => v) w hw
  have hwv : w = v := hveq
  rw [hwv]
  exact hv

/-- C5 (witness): with stopword set `{"xx"}` and identity stemmer the body
`"hello"` yields the token `"hello"`, which is not a stopword. -/
theorem C5_stopword_surface_filter_witness :
    "hello".data ∉ (["xx".data] : List (List Char)) :=
  (C5_stopword_surface_filter "hello".data ["xx".data] (fun v => v)).2
    "hello".data (by decide)

/-- C6: every token appearing in any input sequence is a key of the built
vocabulary exactly once, and the list of integer identifiers is exactly
`0, 1, ..., N-1` where `N` is the number of distinct tokens. -/
theorem C6_vocab_complete (ham spam : List (List (List Char)))
    (w : List Char) (seq : List (List Char))
    (hseq : seq ∈ ham ++ spam) (hw : w ∈ seq) :
    ((vocab ham spam).map Prod.fst).count w = 1
    ∧ (vocab ham spam).map Prod.snd = List.range (vocabList ham spam).length := by
  have hkeys : (vocab ham spam).map Prod.fst = vocabList ham spam := by
    unfold vocab
    rw [List.map_map]
    have hcmp : (Prod.fst ∘ fun p : Nat × List Char => (p.2, p.1)) = Prod.snd := rfl
    rw [hcmp, List.enum_map_snd]
  constructor
  · rw [hkeys]
    have hmem : w ∈ vocabList ham spam := by
      rw [mem_vocabList]
      rcases List.mem_append.mp hseq with hh | hh
      · exact List.mem_append_left _ (List.mem_flatten.mpr ⟨seq, hh, hw⟩)
      · exact List.mem_append_right _ (List.mem_flatten.mpr ⟨seq, hh, hw⟩)
    exact count_eq_one_of_nodup_mem (vocabList ham spam)
      (vocabList_nodup ham spam) w hmem
  · unfold vocab
    rw [List.map_map]
    have hcmp : (Prod.snd ∘ fun p : Nat × List Char => (p.2, p.1)) = Prod.fst := rfl
    rw [hcmp, List.enum_map_fst]

/-- C6 (witness): instantiated on ham `[["b", "a"]]` and spam `[["c"]]` with
the token `"a"`. -/
theorem C6_vocab_complete_witness :
    ((vocab [["b".data, "a".data]] [["c".data]]).map Prod.fst).count "a".data = 1
    ∧ (vocab [["b".data, "a".data]] [["c".data]]).map Prod.snd
        = List.range (vocabList [["b".data, "a".data]] [["c".data]]).length :=
  C6_vocab_complete [["b".data, "a".data]] [["c".data]] "a".data
    ["b".data, "a".data] (by decide) (by decide)

/-- C7: the vocabulary builder depends only on the set union of all tokens:
two pairs of collections with the same token set yield the identical mapping,
and swapping the ham and spam collections changes nothing. -/
theorem C7_vocab_order_independent (h₁ s₁ h₂ s₂ : List (List (List Char)))
    (hset : (h₁.flatten ++ s₁.flatten).toFinset
      = (h₂.flatten ++ s₂.flatten).toFinset) :
    vocab h₁ s₁ = vocab h₂ s₂ ∧ vocab h₁ s₁ = vocab s₁ h₁ := by
  constructor
  · apply vocab_ext
    intro w
    constructor
    · intro hw
      have hmem := List.mem_toFinset.mpr hw
      rw [hset] at hmem
      exact List.mem_toFinset.mp hmem
    · intro hw
      have hmem := List.mem_toFinset.mpr hw
      rw [← hset] at hmem
      exact List.mem_toFinset.mp hmem
  · apply vocab_ext
    intro w
    simp only [List.mem_append]
    exact or_comm

/-- C7 (witness): the collections `[["a"], ["b"]] / [["c"]]` and
`[["c", "b"]] / [["b"], ["a"]]` carry the same token set and receive the same
vocabulary, as does the ham/spam swap of the first pair. -/
theorem C7_vocab_order_independent_witness :
    vocab [["a".data], ["b".data]] [["c".data]]
        = vocab [["c".data, "b".data]] [["b".data], ["a".data]]
    ∧ vocab [["a".data], ["b".data]] [["c".data]]
        = vocab [["c".data]] [["a".data], ["b".data]] :=
  C7_vocab_order_independent [["a".data], ["b".data]] [["c".data]]
    [["c".data, "b".data]] [["b".data], ["a".data]] (by decide)

/-- C8: each of the four literal substitution markers, in upper case as
inserted and in lower case, passes the final shape filter (length at most 20,
no underscore, no digit), so a marker token surviving stopword filtering and
stemming is never removed by the filter. -/
theorem C8_markers_pass_filter :
    keepWord "HTTPADDRESS".data = true ∧ keepWord "EMAILADDRESS".data = true
    ∧ keepWord "NUMBER".data = true ∧ keepWord "HASH".data = true
    ∧ keepWord "httpaddress".data = true ∧ keepWord "emailaddress".data = true
    ∧ keepWord "number".data = true ∧ keepWord "hash".data = true := by
  decide

/-- C9 (counterexample): with a stemming function whose outputs contain no
whitespace but may be empty, the normalizer can return an empty token: the body
`"a"` with the constant-empty stemmer yields `[""]`, refuting the claimed
non-emptiness. -/
theorem C9_counterexample :
    email_body_to_words "a".data [] (fun _ => ([] : List Char)) = [[]]
    ∧ ¬ (∀ w ∈ email_body_to_words "a".data [] (fun _ => ([] : List Char)),
          w ≠ []) := by
  refine ⟨by decide, ?_⟩
  intro hall
  exact hall [] (by decide) rfl

/-- C9 (amended): for every stemming function whose outputs are non-empty and
contain no whitespace, every token returned by the normalizer is non-empty and
contains no whitespace; moreover the candidate words produced by the whitespace
split are always non-empty and whitespace-free (every maximal non-word run is
collapsed to a single space before the split). -/
theorem C9_token_whitespace (body : List Char) (stopwords : List (List Char))
    (stemmer : List Char → List Char)
    (hst : ∀ v, stemmer v ≠ [] ∧ ∀ c ∈ stemmer v, c.isWhitespace = false) :
    (∀ w ∈ email_body_to_words body stopwords stemmer,
        w ≠ [] ∧ ∀ c ∈ w, c.isWhitespace = false)
    ∧ ∀ l : List Char, ∀ w ∈ splitWs l, w ≠ [] ∧ ∀ c ∈ w, c.isWhitespace = false := by
  constructor
  · intro w hw
    simp only [email_body_to_words] at hw
    have hw2 := (List.mem_filter.mp hw).1
    obtain ⟨v, hv, hveq⟩ := List.mem_map.mp hw2
    rw [← hveq]
    exact hst v
  · intro l
    exact splitWs_sound l

/-- C9 (witness): instantiated with the constant stemmer `"a"` on the body
`"b"`, whose output token is `"a"`. -/
theorem C9_token_whitespace_witness :
    (['a'] : List Char) ≠ [] ∧ ∀ c ∈ (['a'] : List Char), c.isWhitespace = false :=
  (C9_token_whitespace "b".data [] (fun _ => ['a'])
      (by
        intro v
        constructor
        · show (['a'] : List Char) ≠ []
          decide
        · show ∀ c ∈ (['a'] : List Char), c.isWhitespace = false
          decide)).1 ['a'] (by decide)

/-- C10: the hash pattern is not anchored to runs of exactly 32 characters:
a run of 64 lowercase hexadecimal characters becomes the adjacent text
`HASHHASH`; in general every all-hexadecimal run has its leftmost
non-overlapping 32-character windows replaced and the remainder kept; and
tokenizing a lone 64-character run with empty stopwords and identity stemmer
yields the single candidate word `HASHHASH`, not two separate `HASH` tokens. -/
theorem C10_hash_windows :
    (∀ h : List Char, (∀ a ∈ h, isHexLower a = true) → h.length = 64 →
        subHash h = "HASHHASH".data)
    ∧ (∀ h : List Char, (∀ a ∈ h, isHexLower a = true) →
        subHash h = (List.replicate (h.length / 32) "HASH".data).flatten
          ++ h.drop (32 * (h.length / 32)))
    ∧ email_body_to_words (List.replicate 64 'a') [] (fun w => w)
        = ["HASHHASH".data] := by
  refine ⟨?_, fun h hh => subHash_hex_windows h hh, by decide⟩
  intro h hh hlen
  rw [subHash_hex_windows h hh, hlen]
  have h1 : (64 : Nat) / 32 = 2 := by norm_num
  rw [h1]
  have h2 : h.drop (32 * 2) = [] := by
    have : (32 : Nat) * 2 = 64 := by norm_num
    rw [this, ← hlen]
    exact List.drop_length h
  rw [h2]
  decide

/-- C10 (witness): the run of 64 `'a'` characters. -/
theorem C10_hash_windows_witness :
    subHash (List.replicate 64 'a') = "HASHHASH".data :=
  C10_hash_windows.1 (List.replicate 64 'a') (by decide) (by decide)

end SpamData
